import Mathlib

/-!
Shallow embedding of the data-transformation core of the `noro-crypto`
dashboards (CoinGecko crypto dashboard + NASA space dashboard).

Numbers that the TypeScript source manipulates as IEEE doubles are modelled
as rationals (`ℚ`); exact rational arithmetic coincides with the float
computation on all the small integral fixtures used below, and every claim
about the transformation layer is stated over this model.

Source files embedded here:
  * `src/lib/coingecko.ts` (`buildPriceBars`, `computeGreenRate`,
    `buildVolumeBars`)
  * the crypto dashboard page (market share, top gainer / loser, average
    24h change)
  * `src/app/nasa/page.tsx` (`computeNeoHazards`, `pickClosestNeos`,
    `groupFlaresByDay`)
-/

/-! ## JavaScript numeric and list primitives -/

/-- JavaScript `Math.round`: round half toward positive infinity,
`Math.round x = ⌊x + 1/2⌋`. -/
def jsRound (q : ℚ) : ℤ := ⌊q + 1 / 2⌋

/-- JavaScript `Math.max(...xs)` over a spread of a list.  The empty case
(JS would give `-Infinity`) is mapped to `0`; every call site below only
reaches `listMax` with a nonempty list. -/
def listMax : List ℚ → ℚ
  | [] => 0
  | x :: xs => xs.foldl max x

/-- JavaScript `xs.slice(-n)`.  For `n ≥ 1` this keeps the last
`min n xs.length` elements; `xs.slice(-0)` is `xs.slice(0)`, the whole
list. -/
def jsSliceLast (l : List α) (n : ℕ) : List α :=
  if n = 0 then l else l.drop (l.length - n)

/-! ## `src/lib/coingecko.ts` — price bars -/

/-- Output shape of `buildPriceBars`.  The TypeScript object also carries a
`label` (a locale-formatted calendar date derived from the timestamp); the
label is presentational formatting and is not modelled. -/
structure PriceBar where
  value : ℚ
  height : ℤ
deriving DecidableEq, Repr

/--
`buildPriceBars` from `src/lib/coingecko.ts`.

```
if (!prices.length) return [];
const step = Math.max(1, Math.floor(prices.length / maxPoints));
const sampled = prices.filter((_, idx) => idx % step === 0).slice(-maxPoints);
const values = sampled.map(([, price]) => price);
const maxValue = Math.max(...values);
return sampled.map(([ts, price]) => ... height = maxValue ? Math.round((price / maxValue) * 100) : 0 ...);
```

A price series is a list of `(timestamp, price)` pairs.  For
`maxPoints = 0` the JS computation has `step = Infinity` (float division by
zero), so only index `0` survives the filter, and `slice(-0)` keeps
everything: the result is the first sample alone; that case is written out
explicitly since `step` is otherwise modelled with natural division.
-/
def buildPriceBars (prices : List (ℚ × ℚ)) (maxPoints : ℕ) : List PriceBar :=
  if prices.isEmpty then []
  else
    let sampled :=
      if maxPoints = 0 then prices.take 1
      else
        jsSliceLast
          ((prices.enum.filter fun p => p.1 % max 1 (prices.length / maxPoints) == 0).map
            Prod.snd)
          maxPoints
    let values := sampled.map Prod.snd
    let maxValue := listMax values
    sampled.map fun pr =>
      { value := pr.2
        height := if maxValue = 0 then 0 else jsRound (pr.2 / maxValue * 100) }

/-! ## `src/lib/coingecko.ts` — green rate -/

/-- Output shape of `computeGreenRate`. -/
structure GreenRate where
  greenRate : ℚ
  up : ℕ
  down : ℕ
deriving DecidableEq, Repr

/-- The counting loop of `computeGreenRate`: walk the successive prices,
`prev` holding the previous one, incrementing `up` on a strict rise and
`down` on a strict fall (`diff > 0` / `diff < 0`); equal neighbours touch
neither counter. -/
def greenLoop (prev : ℚ) : List ℚ → ℕ → ℕ → ℕ × ℕ
  | [], up, down => (up, down)
  | c :: rest, up, down =>
    if prev < c then greenLoop c rest (up + 1) down
    else if c < prev then greenLoop c rest up (down + 1)
    else greenLoop c rest up down

/--
`computeGreenRate` from `src/lib/coingecko.ts`.

```
if (prices.length < 2) return { greenRate: 0, up: 0, down: 0 };
for (let i = 1; i < prices.length; i++) { ... diff > 0 ? up++ : diff < 0 ? down++ : ... }
const total = up + down;
const greenRate = total ? (up / total) * 100 : 0;
```
-/
def computeGreenRate (prices : List (ℚ × ℚ)) : GreenRate :=
  if prices.length < 2 then { greenRate := 0, up := 0, down := 0 }
  else
    match prices with
    | [] => { greenRate := 0, up := 0, down := 0 }
    | p :: rest =>
      let ud := greenLoop p.2 (rest.map Prod.snd) 0 0
      let total := ud.1 + ud.2
      { greenRate := if total = 0 then 0 else (ud.1 : ℚ) / (total : ℚ) * 100
        up := ud.1
        down := ud.2 }

/-! ## `src/types/coingecko.ts` — market coins, and
`src/lib/coingecko.ts` — volume bars -/

/-- `MarketCoin` from `src/types/coingecko.ts`.  `image` is omitted
(purely presentational); `price_change_percentage_24h` is `number | null`,
modelled as `Option ℚ`. -/
structure MarketCoin where
  id : String
  symbol : String
  name : String
  current_price : ℚ
  market_cap : ℚ
  total_volume : ℚ
  price_change_percentage_24h : Option ℚ
  market_cap_rank : ℕ
deriving DecidableEq, Repr

/-- Output shape of `buildVolumeBars`. -/
structure VolumeBar where
  label : String
  value : ℚ
  height : ℤ
deriving DecidableEq, Repr

/--
`buildVolumeBars` from `src/lib/coingecko.ts`.

```
if (!coins.length) return [];
const volumes = coins.map((coin) => coin.total_volume || 0);
const maxVolume = Math.max(...volumes);
return coins.map((coin) => ({ label: coin.symbol.toUpperCase(), value: coin.total_volume,
  height: maxVolume ? Math.round((coin.total_volume / maxVolume) * 100) : 0 }));
```

On rationals `coin.total_volume || 0` is the identity (`0 || 0` is `0`), so
`volumes` is just the list of volumes.
-/
def buildVolumeBars (coins : List MarketCoin) : List VolumeBar :=
  if coins.isEmpty then []
  else
    let maxVolume := listMax (coins.map MarketCoin.total_volume)
    coins.map fun c =>
      { label := c.symbol.toUpper
        value := c.total_volume
        height := if maxVolume = 0 then 0 else jsRound (c.total_volume / maxVolume * 100) }

/-! ## Crypto dashboard page — market share, gainer / loser, average change -/

/-- One market-share entry (`MarketShareItem` on the dashboard page). -/
structure MarketShareItem where
  id : String
  name : String
  share : ℚ
deriving DecidableEq, Repr

/-- `top5.reduce((sum, coin) => sum + (coin.market_cap || 0), 0)` where
`top5 = topCoins.slice(0, 5)`.  On rationals `x || 0` is the identity. -/
def totalTop5Cap (coins : List MarketCoin) : ℚ :=
  ((coins.take 5).map MarketCoin.market_cap).foldl (· + ·) 0

/-- The market-share computation of the dashboard page:
`share = totalTop5Cap ? (coin.market_cap / totalTop5Cap) * 100 : 0` over
the first five coins of the (market-cap ordered) list. -/
def marketShare (coins : List MarketCoin) : List MarketShareItem :=
  (coins.take 5).map fun c =>
    { id := c.id
      name := c.name
      share :=
        if totalTop5Cap coins = 0 then 0 else c.market_cap / totalTop5Cap coins * 100 }

/-- `coinsWithChange`: the coins whose 24h percent change is present
(`typeof c.price_change_percentage_24h === "number"`). -/
def coinsWithChange (coins : List MarketCoin) : List MarketCoin :=
  coins.filter fun c => c.price_change_percentage_24h.isSome

/-- `c.price_change_percentage_24h ?? 0`, the defaulted change used by the
page's comparators and sums (on `coinsWithChange` the default never
fires). -/
def chgD (c : MarketCoin) : ℚ :=
  c.price_change_percentage_24h.getD 0

/-- `topGainer`: stable-sort `coinsWithChange` by change descending
(JS `sort((a, b) => (b.chg ?? 0) - (a.chg ?? 0))`, stable per ES2019) and
take the first element, `null` when there is none.  `List.mergeSort` is a
stable sort, so it is a faithful model of the ECMAScript sort. -/
def topGainer (coins : List MarketCoin) : Option MarketCoin :=
  ((coinsWithChange coins).mergeSort fun a b => decide (chgD b ≤ chgD a)).head?

/-- `topLoser`: stable-sort `coinsWithChange` by change ascending and take
the first element, `null` when there is none. -/
def topLoser (coins : List MarketCoin) : Option MarketCoin :=
  ((coinsWithChange coins).mergeSort fun a b => decide (chgD a ≤ chgD b)).head?

/-- `avgChange24h`: mean of the defaulted changes over `coinsWithChange`,
`0` when that list is empty. -/
def avgChange24h (coins : List MarketCoin) : ℚ :=
  let cw := coinsWithChange coins
  if cw.length = 0 then 0
  else ((cw.map chgD).foldl (· + ·) 0) / (cw.length : ℚ)

/-! ## NASA page — near-Earth objects -/

/-- One close-approach record of a NEO.  The feed delivers
`miss_distance.kilometers` and `relative_velocity.kilometers_per_second`
as decimal strings which the page converts with `Number(...)`; the fields
are modelled by their numeric values. -/
structure CloseApproach where
  close_approach_date : String
  miss_distance_km : ℚ
  relative_velocity_km_s : ℚ
  orbiting_body : String
deriving DecidableEq, Repr

/-- `NeoObject` from `src/app/nasa/page.tsx` (the
`estimated_diameter.kilometers` nesting is flattened into the two diameter
fields). -/
structure NeoObject where
  id : String
  name : String
  is_potentially_hazardous_asteroid : Bool
  estimated_diameter_min : ℚ
  estimated_diameter_max : ℚ
  close_approach_data : List CloseApproach
deriving DecidableEq, Repr

/-- A NEO tagged with its source date, as produced by `flattenNeos`. -/
structure DatedNeo where
  date : String
  neo : NeoObject
deriving DecidableEq, Repr

/-- Output shape of `computeNeoHazards`. -/
structure NeoHazards where
  total : ℕ
  hazardous : ℕ
  hazardRate : ℚ
  avgDiameterKm : ℚ
deriving DecidableEq, Repr

/--
`computeNeoHazards` from `src/app/nasa/page.tsx`:
total count, hazardous count, `hazardRate = total ? hazardous/total*100 : 0`
and the mean of `(min + max)/2` over all objects (`0` when there are
none).
-/
def computeNeoHazards (neos : List DatedNeo) : NeoHazards :=
  let total := neos.length
  let hazardous := (neos.filter fun n => n.neo.is_potentially_hazardous_asteroid).length
  let diameters :=
    neos.map fun n => (n.neo.estimated_diameter_min + n.neo.estimated_diameter_max) / 2
  { total := total
    hazardous := hazardous
    hazardRate := if total = 0 then 0 else (hazardous : ℚ) / (total : ℚ) * 100
    avgDiameterKm :=
      if 0 < diameters.length then (diameters.foldl (· + ·) 0) / (diameters.length : ℚ)
      else 0 }

/-- The enriched NEO row produced by `pickClosestNeos`: the object spread
together with the first approach's date, miss distance and velocity. -/
structure EnrichedNeo where
  neo : NeoObject
  date : String
  missKm : ℚ
  velocityKmPerSec : ℚ
deriving DecidableEq, Repr

/-- The body of the `.map` inside `pickClosestNeos`: `null` (here `none`)
when the object has no close-approach record, otherwise the enriched row
built from `close_approach_data[0]`. -/
def enrichNeo (n : DatedNeo) : Option EnrichedNeo :=
  match n.neo.close_approach_data with
  | [] => none
  | fa :: _ =>
    some
      { neo := n.neo
        date := fa.close_approach_date
        missKm := fa.miss_distance_km
        velocityKmPerSec := fa.relative_velocity_km_s }

/--
`pickClosestNeos` from `src/app/nasa/page.tsx`:
map each object to its enriched row (or `null`), `filter(Boolean)`
(`reduceOption`), stable-sort ascending by miss distance
(`sort((a, b) => a.missKm - b.missKm)`), and `slice(0, limit)`.
-/
def pickClosestNeos (neos : List DatedNeo) (limit : ℕ) : List EnrichedNeo :=
  (((neos.map enrichNeo).reduceOption).mergeSort fun a b =>
      decide (a.missKm ≤ b.missKm)).take limit

/-! ## NASA page — solar flares -/

/-- `SolarFlare` from `src/app/nasa/page.tsx` (fields not used by
`groupFlaresByDay` are kept for shape fidelity; `link` is omitted). -/
structure SolarFlare where
  flrID : String
  beginTime : String
  peakTime : String
  endTime : String
  classType : String
  sourceLocation : Option String
deriving DecidableEq, Repr

/-- One `map.set(day, (map.get(day) ?? 0) + 1)` step on a JS `Map`
represented as an insertion-ordered association list: an existing key is
bumped in place, a new key is appended at the end. -/
def mapBump : List (String × ℕ) → String → List (String × ℕ)
  | [], day => [(day, 1)]
  | (k, v) :: rest, day =>
    if k = day then (k, v + 1) :: rest else (k, v) :: mapBump rest day

/--
`groupFlaresByDay` from `src/app/nasa/page.tsx`: accumulate per-day
counts keyed by `beginTime.slice(0, 10)` in a `Map`, then sort the
entries ascending by day string (`localeCompare` on the ASCII
`YYYY-MM-DD` keys agrees with code-point order, modelled by `String`
order).
-/
def groupFlaresByDay (flares : List SolarFlare) : List (String × ℕ) :=
  ((flares.foldl (fun m f => mapBump m (f.beginTime.take 10)) []).mergeSort fun a b =>
    decide (a.1 ≤ b.1))

/-! ## Spec-side definitions

These definitions transcribe the spec's wording (step formula, "keep the
last n", consecutive-pair classification, first-occurrence extremum) so
that the claims can compare them with the source embeddings above. -/

/-- The spec's step: `step = max(1, floor(length / n))`. -/
def specStep (len n : ℕ) : ℕ := max 1 (len / n)

/-- The samples the spec says are retained: those at indices divisible by
`step`, of which only the last `n` are kept. -/
def specRetained (prices : List (ℚ × ℚ)) (n : ℕ) : List (ℚ × ℚ) :=
  let kept := (prices.enum.filter fun p => p.1 % specStep prices.length n == 0).map Prod.snd
  kept.drop (kept.length - n)

/-- Consecutive price pairs of a series: `(price[i-1], price[i])`. -/
def priceSteps (prices : List (ℚ × ℚ)) : List (ℚ × ℚ) :=
  (prices.map Prod.snd).zip (prices.map Prod.snd).tail

/-- The spec's up-moves: consecutive pairs whose later price is strictly
greater. -/
def upMoves (prices : List (ℚ × ℚ)) : ℕ :=
  (priceSteps prices).countP fun s => decide (s.1 < s.2)

/-- The spec's down-moves: consecutive pairs whose later price is strictly
smaller. -/
def downMoves (prices : List (ℚ × ℚ)) : ℕ :=
  (priceSteps prices).countP fun s => decide (s.2 < s.1)

/-- `Math.min(...xs)` analogue of `listMax`, used to phrase the loser
selection. -/
def listMin : List ℚ → ℚ
  | [] => 0
  | x :: xs => xs.foldl min x

/-- The head of a stable sort: scanning from the left, an element is kept
over the best of the rest whenever the relation lets it come first
(so ties go to the earlier element). -/
def firstBest (le : α → α → Bool) : List α → Option α
  | [] => none
  | x :: xs =>
    match firstBest le xs with
    | none => some x
    | some y => if le x y then some x else some y

/-! ## Helper lemmas on list maxima and folds -/

theorem foldl_max_max (x y : ℚ) : ∀ l : List ℚ, l.foldl max (max x y) = max x (l.foldl max y)
  | [] => rfl
  | z :: l => by
    have h : max (max x y) z = max x (max y z) := max_assoc x y z
    simpa [h] using foldl_max_max x (max y z) l

theorem listMax_cons (a : ℚ) {l : List ℚ} (h : l ≠ []) :
    listMax (a :: l) = max a (listMax l) := by
  match l, h with
  | b :: bs, _ => simpa [listMax] using foldl_max_max a b bs

theorem foldl_max_bounds : ∀ (l : List ℚ) (a : ℚ),
    a ≤ l.foldl max a ∧ ∀ x ∈ l, x ≤ l.foldl max a
  | [], a => by simp
  | z :: l, a => by
    obtain ⟨h1, h2⟩ := foldl_max_bounds l (max a z)
    refine ⟨le_trans (le_max_left a z) (by simpa using h1), ?_⟩
    intro x hx
    rcases List.mem_cons.mp hx with h | h
    · subst h
      exact le_trans (le_max_right a x) (by simpa using h1)
    · simpa using h2 x h

theorem le_listMax {l : List ℚ} {x : ℚ} (hx : x ∈ l) : x ≤ listMax l := by
  match l, hx with
  | y :: ys, hx =>
    rcases List.mem_cons.mp hx with h | h
    · subst h; exact (foldl_max_bounds ys x).1
    · exact (foldl_max_bounds ys y).2 x h

theorem foldl_max_mem : ∀ (l : List ℚ) (a : ℚ), l.foldl max a ∈ a :: l
  | [], a => by simp
  | z :: l, a => by
    have h := foldl_max_mem l (max a z)
    rcases List.mem_cons.mp h with h1 | h1
    · rcases max_choice a z with h2 | h2 <;>
        · rw [List.foldl_cons]
          rw [h1, h2]
          simp
    · rw [List.foldl_cons]
      exact List.mem_cons.mpr (Or.inr (List.mem_cons.mpr (Or.inr h1)))

theorem listMax_mem {l : List ℚ} (h : l ≠ []) : listMax l ∈ l := by
  match l, h with
  | y :: ys, _ => simpa [listMax] using foldl_max_mem ys y

theorem foldl_min_bounds : ∀ (l : List ℚ) (a : ℚ),
    l.foldl min a ≤ a ∧ ∀ x ∈ l, l.foldl min a ≤ x
  | [], a => by simp
  | z :: l, a => by
    obtain ⟨h1, h2⟩ := foldl_min_bounds l (min a z)
    refine ⟨le_trans (by simpa using h1) (min_le_left a z), ?_⟩
    intro x hx
    rcases List.mem_cons.mp hx with h | h
    · subst h
      exact le_trans (by simpa using h1) (min_le_right a x)
    · simpa using h2 x h

theorem listMin_le {l : List ℚ} {x : ℚ} (hx : x ∈ l) : listMin l ≤ x := by
  match l, hx with
  | y :: ys, hx =>
    rcases List.mem_cons.mp hx with h | h
    · subst h; exact (foldl_min_bounds ys x).1
    · exact (foldl_min_bounds ys y).2 x h

theorem foldl_min_min (x y : ℚ) : ∀ l : List ℚ, l.foldl min (min x y) = min x (l.foldl min y)
  | [] => rfl
  | z :: l => by
    have h : min (min x y) z = min x (min y z) := min_assoc x y z
    simpa [h] using foldl_min_min x (min y z) l

theorem listMin_cons (a : ℚ) {l : List ℚ} (h : l ≠ []) :
    listMin (a :: l) = min a (listMin l) := by
  match l, h with
  | b :: bs, _ => simpa [listMin] using foldl_min_min a b bs

/-! ## Rounding bounds -/

theorem jsRound_nonneg {q : ℚ} (h : 0 ≤ q) : 0 ≤ jsRound q := by
  have : (0 : ℚ) ≤ q + 1 / 2 := by linarith
  exact Int.floor_nonneg.mpr this

theorem jsRound_le_100 {q : ℚ} (h : q ≤ 100) : jsRound q ≤ 100 := by
  have h1 : q + 1 / 2 < ((101 : ℤ) : ℚ) := by push_cast; linarith
  have h2 : jsRound q < 101 := Int.floor_lt.mpr h1
  omega

theorem jsRound_hundred : jsRound 100 = 100 := by
  unfold jsRound
  norm_num

/-! ## Unfolding `buildPriceBars` to the spec's pipeline -/

theorem buildPriceBars_eq (prices : List (ℚ × ℚ)) (n : ℕ) (hn : n ≠ 0) :
    buildPriceBars prices n =
      (specRetained prices n).map fun pr =>
        { value := pr.2
          height :=
            if listMax ((specRetained prices n).map Prod.snd) = 0 then 0
            else jsRound (pr.2 / listMax ((specRetained prices n).map Prod.snd) * 100) } := by
  cases prices with
  | nil => simp [buildPriceBars, specRetained]
  | cons p rest =>
    simp only [buildPriceBars, specRetained, specStep, jsSliceLast, hn, List.isEmpty_cons,
      if_neg, if_false, Bool.false_eq_true]

theorem specRetained_sublist (prices : List (ℚ × ℚ)) (n : ℕ) :
    (specRetained prices n).Sublist prices := by
  unfold specRetained
  refine List.Sublist.trans (List.drop_sublist _ _) ?_
  have h1 : ((prices.enum.filter fun p =>
      p.1 % specStep prices.length n == 0).map Prod.snd).Sublist (prices.enum.map Prod.snd) :=
    List.Sublist.map Prod.snd (List.filter_sublist _)
  simpa [List.enum_map_snd] using h1

theorem specRetained_length_le (prices : List (ℚ × ℚ)) (n : ℕ) :
    (specRetained prices n).length ≤ n := by
  unfold specRetained
  simp only [List.length_drop]
  omega

/-! ## C1 — the downsampling pipeline of `buildPriceBars` -/

/-- C1: for a target bar count `n ≥ 1` (the spec's `step = max(1,
floor(length/n))` presupposes a positive target), `buildPriceBars` keeps
exactly the samples at indices divisible by `step`, then the last `n` of
those, and gives each retained sample the height
`round(price / max-of-retained * 100)` (0-guarded), normalised against the
maximum among the *retained* samples; an empty series yields `[]`. -/
theorem buildPriceBars_downsample_spec (prices : List (ℚ × ℚ)) (n : ℕ) (hn : 0 < n) :
    buildPriceBars [] n = [] ∧
    (buildPriceBars prices n).map PriceBar.value = (specRetained prices n).map Prod.snd ∧
    ∀ b ∈ buildPriceBars prices n,
      b.height =
        if listMax ((specRetained prices n).map Prod.snd) = 0 then 0
        else jsRound (b.value / listMax ((specRetained prices n).map Prod.snd) * 100) := by
  have hn' : n ≠ 0 := Nat.pos_iff_ne_zero.mp hn
  refine ⟨by simp [buildPriceBars], ?_, ?_⟩
  · rw [buildPriceBars_eq prices n hn']
    simp [List.map_map, Function.comp]
  · rw [buildPriceBars_eq prices n hn']
    intro b hb
    obtain ⟨pr, hpr, rfl⟩ := List.mem_map.mp hb
    rfl

/-- Witness for C1 at the spec's §8 price-series scenario with the default
target of 12 bars. -/
theorem buildPriceBars_downsample_spec_witness :
    0 < 12 ∧
    (buildPriceBars [((0 : ℚ), (100 : ℚ)), (1, 110), (2, 105), (3, 105), (4, 120)] 12).map
        PriceBar.value =
      (specRetained [((0 : ℚ), (100 : ℚ)), (1, 110), (2, 105), (3, 105), (4, 120)] 12).map
        Prod.snd :=
  ⟨by decide,
    (buildPriceBars_downsample_spec
      [((0 : ℚ), (100 : ℚ)), (1, 110), (2, 105), (3, 105), (4, 120)] 12 (by decide)).2.1⟩

/-! ## C2 — `computeGreenRate` -/

theorem greenLoop_eq (l : List ℚ) : ∀ (prev : ℚ) (u d : ℕ),
    greenLoop prev l u d =
      (u + ((prev :: l).zip l).countP fun s => decide (s.1 < s.2),
       d + ((prev :: l).zip l).countP fun s => decide (s.2 < s.1)) := by
  induction l with
  | nil => intro prev u d; simp [greenLoop]
  | cons c rest ih =>
    intro prev u d
    have hz : (prev :: c :: rest).zip (c :: rest) = (prev, c) :: ((c :: rest).zip rest) := rfl
    rw [hz, List.countP_cons, List.countP_cons]
    rcases lt_trichotomy prev c with h | h | h
    · rw [show greenLoop prev (c :: rest) u d = greenLoop c rest (u + 1) d by
        simp [greenLoop, h], ih c (u + 1) d]
      have h2 : ¬ c < prev := not_lt_of_lt h
      simp only [Prod.mk.injEq]
      refine ⟨?_, ?_⟩ <;> simp [h, h2] <;> omega
    · subst h
      rw [show greenLoop prev (prev :: rest) u d = greenLoop prev rest u d by
        simp [greenLoop], ih prev u d]
      simp
    · rw [show greenLoop prev (c :: rest) u d = greenLoop c rest u (d + 1) by
        simp [greenLoop, h, not_lt_of_lt h], ih c u (d + 1)]
      have h2 : ¬ prev < c := not_lt_of_lt h
      simp only [Prod.mk.injEq]
      refine ⟨?_, ?_⟩ <;> simp [h, h2] <;> omega

theorem computeGreenRate_shape (prices : List (ℚ × ℚ)) :
    computeGreenRate prices =
      { up := upMoves prices
        down := downMoves prices
        greenRate :=
          if upMoves prices + downMoves prices = 0 then 0
          else (upMoves prices : ℚ) / ((upMoves prices + downMoves prices : ℕ) : ℚ) * 100 } := by
  match prices with
  | [] => rfl
  | [p] => rfl
  | p :: q :: rest =>
    have hlen : ¬ (p :: q :: rest).length < 2 := by simp
    have hsteps : priceSteps (p :: q :: rest) =
        (p.2 :: (q :: rest).map Prod.snd).zip ((q :: rest).map Prod.snd) := rfl
    simp only [computeGreenRate, if_neg hlen]
    rw [greenLoop_eq]
    simp only [upMoves, downMoves, hsteps, Nat.zero_add]

theorem countP_add_countP_le_length (p q : α → Bool) (l : List α)
    (h : ∀ x ∈ l, ¬(p x = true ∧ q x = true)) : l.countP p + l.countP q ≤ l.length := by
  induction l with
  | nil => simp
  | cons a l ih =>
    rw [List.countP_cons, List.countP_cons, List.length_cons]
    have ha := h a (List.mem_cons_self a l)
    have ih2 := ih fun x hx => h x (List.mem_cons.mpr (Or.inr hx))
    by_cases hp : p a <;> by_cases hq : q a <;> simp [hp, hq] at ha ⊢ <;> omega

/-- C2: `computeGreenRate` counts exactly the strictly-up and strictly-down
consecutive pairs (equal pairs counted in neither), so `up + down` is at
most `length - 1`; the rate is `up / (up + down) * 100`, and the result is
`{up := 0, down := 0, greenRate := 0}` whenever `up + down = 0`, in
particular for every series with fewer than two samples. -/
theorem computeGreenRate_spec (prices : List (ℚ × ℚ)) :
    (computeGreenRate prices).up = upMoves prices ∧
    (computeGreenRate prices).down = downMoves prices ∧
    (computeGreenRate prices).up + (computeGreenRate prices).down ≤ prices.length - 1 ∧
    ((computeGreenRate prices).up + (computeGreenRate prices).down = 0 →
      computeGreenRate prices = { greenRate := 0, up := 0, down := 0 }) ∧
    ((computeGreenRate prices).up + (computeGreenRate prices).down ≠ 0 →
      (computeGreenRate prices).greenRate =
        ((computeGreenRate prices).up : ℚ) /
          (((computeGreenRate prices).up : ℚ) + ((computeGreenRate prices).down : ℚ)) * 100) ∧
    (prices.length < 2 → computeGreenRate prices = { greenRate := 0, up := 0, down := 0 }) := by
  have hshape := computeGreenRate_shape prices
  have hlen : (priceSteps prices).length = prices.length - 1 := by
    unfold priceSteps
    simp [List.length_zip]
  have hbound : upMoves prices + downMoves prices ≤ prices.length - 1 := by
    have h2 := countP_add_countP_le_length (fun s => decide ((s : ℚ × ℚ).1 < s.2))
      (fun s => decide ((s : ℚ × ℚ).2 < s.1)) (priceSteps prices) ?_
    · rw [← hlen]
      unfold upMoves downMoves
      omega
    · intro x _ hx
      simp only [decide_eq_true_eq] at hx
      exact absurd hx.2 (not_lt_of_lt hx.1)
  refine ⟨by rw [hshape], by rw [hshape], by rw [hshape]; exact hbound, ?_, ?_, ?_⟩
  · intro h0
    rw [hshape] at h0 ⊢
    simp only at h0
    have hu : upMoves prices = 0 := by omega
    have hd : downMoves prices = 0 := by omega
    simp [hu, hd]
  · intro h0
    rw [hshape] at h0 ⊢
    simp only at h0 ⊢
    rw [if_neg h0]
    push_cast
    rfl
  · intro hshort
    have h0 : upMoves prices + downMoves prices = 0 := by
      have : (priceSteps prices).length = 0 := by omega
      have hu : upMoves prices ≤ 0 := by
        unfold upMoves
        rw [← this]
        exact List.countP_le_length _
      have hd : downMoves prices ≤ 0 := by
        unfold downMoves
        rw [← this]
        exact List.countP_le_length _
      omega
    rw [hshape]
    have hu : upMoves prices = 0 := by omega
    have hd : downMoves prices = 0 := by omega
    simp [hu, hd]

/-- Witness for C2 at the spec's §8 scenario
`[(t0,100),(t1,110),(t2,105),(t3,105),(t4,120)]`: two ups, one down,
`greenRate = 200/3 ≈ 66.67`. -/
theorem computeGreenRate_spec_witness :
    (computeGreenRate [((0 : ℚ), (100 : ℚ)), (1, 110), (2, 105), (3, 105), (4, 120)]).up = 2 ∧
    (computeGreenRate [((0 : ℚ), (100 : ℚ)), (1, 110), (2, 105), (3, 105), (4, 120)]).down = 1 ∧
    (computeGreenRate [((0 : ℚ), (100 : ℚ)), (1, 110), (2, 105), (3, 105), (4, 120)]).greenRate =
      200 / 3 := by
  have h := computeGreenRate_spec [((0 : ℚ), (100 : ℚ)), (1, 110), (2, 105), (3, 105), (4, 120)]
  have hu : (computeGreenRate
      [((0 : ℚ), (100 : ℚ)), (1, 110), (2, 105), (3, 105), (4, 120)]).up = 2 := by decide
  have hd : (computeGreenRate
      [((0 : ℚ), (100 : ℚ)), (1, 110), (2, 105), (3, 105), (4, 120)]).down = 1 := by decide
  refine ⟨hu, hd, ?_⟩
  have h5 := h.2.2.2.2.1 (by rw [hu, hd]; decide)
  rw [h5, hu, hd]
  norm_num

/-! ## C3 — market share over the top five coins -/

theorem zip_map_mem (f : α → β) :
    ∀ (l : List α), ∀ p ∈ l.zip (l.map f), (p : α × β).2 = f p.1
  | [], p, hp => by simp at hp
  | a :: l, p, hp => by
    rcases List.mem_cons.mp hp with h | h
    · subst h; rfl
    · exact zip_map_mem f l p h

/-- C3: each of the first five coins gets
`share = market_cap / totalTop5Cap * 100`; when the top-5 cap total is `0`
(in particular for an empty list) every share is `0` with no division
performed, and when the total is positive the shares sum to exactly `100`
(exact rational arithmetic, hence within any floating-point epsilon). -/
theorem marketShare_spec (coins : List MarketCoin) :
    (marketShare coins).length = (coins.take 5).length ∧
    (∀ p ∈ (coins.take 5).zip (marketShare coins),
      (p : MarketCoin × MarketShareItem).2.share =
        if totalTop5Cap coins = 0 then 0 else p.1.market_cap / totalTop5Cap coins * 100) ∧
    (totalTop5Cap coins = 0 → ∀ it ∈ marketShare coins, it.share = 0) ∧
    (0 < totalTop5Cap coins → ((marketShare coins).map MarketShareItem.share).sum = 100) := by
  refine ⟨by simp [marketShare], ?_, ?_, ?_⟩
  · intro p hp
    have h := zip_map_mem _ (coins.take 5) p hp
    rw [h]
  · intro h0 it hit
    unfold marketShare at hit
    obtain ⟨c, _, rfl⟩ := List.mem_map.mp hit
    simp [h0]
  · intro hT
    have hT0 : totalTop5Cap coins ≠ 0 := ne_of_gt hT
    have ht : ((coins.take 5).map MarketCoin.market_cap).sum = totalTop5Cap coins :=
      List.sum_eq_foldl
    have hms : (marketShare coins).map MarketShareItem.share =
        (coins.take 5).map fun c => c.market_cap * (100 / totalTop5Cap coins) := by
      unfold marketShare
      rw [List.map_map]
      refine List.map_congr_left ?_
      intro c _
      simp only [Function.comp]
      rw [if_neg hT0, div_mul_eq_mul_div, mul_div_assoc]
    rw [hms, List.sum_map_mul_right, ht]
    field_simp

/-- Witness for C3 at a three-coin fixture with caps 50, 30, 20: total is
100 > 0 and the shares sum to 100. -/
theorem marketShare_spec_witness :
    0 < totalTop5Cap
        [⟨"btc", "btc", "Bitcoin", 1, 50, 10, some 2, 1⟩,
         ⟨"eth", "eth", "Ethereum", 1, 30, 10, some 1, 2⟩,
         ⟨"xrp", "xrp", "XRP", 1, 20, 10, none, 3⟩] ∧
    ((marketShare
        [⟨"btc", "btc", "Bitcoin", 1, 50, 10, some 2, 1⟩,
         ⟨"eth", "eth", "Ethereum", 1, 30, 10, some 1, 2⟩,
         ⟨"xrp", "xrp", "XRP", 1, 20, 10, none, 3⟩]).map MarketShareItem.share).sum = 100 :=
  ⟨by with_unfolding_all decide,
    (marketShare_spec
      [⟨"btc", "btc", "Bitcoin", 1, 50, 10, some 2, 1⟩,
       ⟨"eth", "eth", "Ethereum", 1, 30, 10, some 1, 2⟩,
       ⟨"xrp", "xrp", "XRP", 1, 20, 10, none, 3⟩]).2.2.2 (by with_unfolding_all decide)⟩

/-! ## C4 — top gainer / loser selection -/

theorem firstBest_eq_none {le : α → α → Bool} :
    ∀ {l : List α}, firstBest le l = none ↔ l = []
  | [] => by simp [firstBest]
  | x :: xs => by
    cases h : firstBest le xs with
    | none => simp [firstBest, h]
    | some y =>
      constructor
      · intro hcontra
        simp only [firstBest, h] at hcontra
        split at hcontra <;> simp at hcontra
      · intro hcontra
        simp at hcontra

theorem firstBest_mem {le : α → α → Bool} :
    ∀ {l : List α} {y : α}, firstBest le l = some y → y ∈ l
  | x :: xs, y, h => by
    cases hxs : firstBest le xs with
    | none =>
      simp only [firstBest, hxs, Option.some.injEq] at h
      simp [← h]
    | some z =>
      have hz : z ∈ xs := firstBest_mem hxs
      simp only [firstBest, hxs] at h
      split at h <;> simp only [Option.some.injEq] at h <;> subst h
      · simp
      · simp [hz]

theorem firstBest_le_all {le : α → α → Bool}
    (htrans : ∀ a b c, le a b = true → le b c = true → le a c = true)
    (htot : ∀ a b, (le a b || le b a) = true) :
    ∀ {l : List α} {y : α}, firstBest le l = some y → ∀ b ∈ l, le y b = true
  | x :: xs, y, h => by
    have hrefl : ∀ a, le a a = true := by
      intro a
      have := htot a a
      simpa using this
    cases hxs : firstBest le xs with
    | none =>
      simp only [firstBest, hxs, Option.some.injEq] at h
      subst h
      have hempty : xs = [] := firstBest_eq_none.mp hxs
      subst hempty
      intro b hb
      simp only [List.mem_singleton] at hb
      subst hb
      exact hrefl _
    | some z =>
      simp only [firstBest, hxs] at h
      have hall : ∀ b ∈ xs, le z b = true := firstBest_le_all htrans htot hxs
      split at h <;> simp only [Option.some.injEq] at h <;> subst h
      · rename_i hxz
        intro b hb
        rcases List.mem_cons.mp hb with hb | hb
        · subst hb; exact hrefl _
        · exact htrans x z b hxz (hall b hb)
      · rename_i hxz
        intro b hb
        rcases List.mem_cons.mp hb with hb | hb
        · subst hb
          have := htot b z
          rcases Bool.or_eq_true_iff.mp this with h1 | h1
          · exact absurd h1 hxz
          · exact h1
        · exact hall b hb

theorem head_mergeSort {le : α → α → Bool}
    (htrans : ∀ a b c, le a b = true → le b c = true → le a c = true)
    (htot : ∀ a b, (le a b || le b a) = true) :
    ∀ l : List α, (l.mergeSort le).head? = firstBest le l := by
  intro l
  induction l with
  | nil => simp [firstBest]
  | cons a t ih =>
    obtain ⟨l₁, l₂, h₁, h₂, h₃⟩ := List.mergeSort_cons htrans htot a t
    cases l₁ with
    | nil =>
      simp only [List.nil_append] at h₁ h₂
      rw [h₁]
      cases hfb : firstBest le t with
      | none =>
        have ht : t = [] := firstBest_eq_none.mp hfb
        subst ht
        simp [firstBest]
      | some y =>
        have hy : y ∈ t := firstBest_mem hfb
        have hs := List.sorted_mergeSort htrans htot (a :: t)
        rw [h₁] at hs
        have hmem : y ∈ l₂ := by rw [← h₂]; exact List.mem_mergeSort.mpr hy
        have hay : le a y = true := (List.pairwise_cons.mp hs).1 y hmem
        simp [firstBest, hfb, hay]
    | cons c l₁t =>
      have hc : firstBest le t = some c := by rw [← ih, h₂]; rfl
      have hac : ¬(le a c = true) := by
        have := h₃ c (List.mem_cons_self c l₁t)
        simpa using this
      rw [h₁]
      simp [firstBest, hc, hac]

theorem firstBest_cons_some {le : α → α → Bool} {xs : List α} {y : α} (x : α)
    (h : firstBest le xs = some y) :
    firstBest le (x :: xs) = if le x y then some x else some y := by
  rw [firstBest, h]

theorem firstBest_max_find (key : α → ℚ) :
    ∀ l : List α,
      firstBest (fun a b => decide (key b ≤ key a)) l =
        l.find? fun c => key c == listMax (l.map key)
  | [] => rfl
  | [x] => by simp [firstBest, listMax]
  | x :: b :: bs => by
    have ih := firstBest_max_find key (b :: bs)
    have hmapne : ((b :: bs).map key) ≠ [] := by simp
    have hM : listMax ((x :: b :: bs).map key) = max (key x) (listMax ((b :: bs).map key)) := by
      rw [List.map_cons]
      exact listMax_cons _ hmapne
    obtain ⟨y, hy⟩ : ∃ y, firstBest (fun a b => decide (key b ≤ key a)) (b :: bs) = some y := by
      cases h : firstBest (fun a b => decide (key b ≤ key a)) (b :: bs) with
      | none => exact absurd (firstBest_eq_none.mp h) (by simp)
      | some y => exact ⟨y, rfl⟩
    have hyM : key y = listMax ((b :: bs).map key) := by
      rw [ih] at hy
      have hp := List.find?_some hy
      simpa using hp
    by_cases hxy : key y ≤ key x
    · have hM2 : listMax ((x :: b :: bs).map key) = key x := by
        rw [hM, ← hyM]
        exact max_eq_left hxy
      rw [List.find?_cons_of_pos _ (by rw [hM2]; exact beq_self_eq_true _)]
      rw [firstBest_cons_some x hy]
      simp [hxy]
    · have hxylt : key x < key y := lt_of_not_le hxy
      have hM2 : listMax ((x :: b :: bs).map key) = key y := by
        rw [hM, ← hyM]
        exact max_eq_right (le_of_lt hxylt)
      rw [List.find?_cons_of_neg _ (by rw [hM2]; simp; exact ne_of_lt hxylt)]
      rw [show listMax ((x :: b :: bs).map key) = listMax ((b :: bs).map key) from
        hM2.trans hyM, ← ih]
      rw [firstBest_cons_some x hy, hy]
      simp [hxy]

theorem firstBest_min_find (key : α → ℚ) :
    ∀ l : List α,
      firstBest (fun a b => decide (key a ≤ key b)) l =
        l.find? fun c => key c == listMin (l.map key)
  | [] => rfl
  | [x] => by simp [firstBest, listMin]
  | x :: b :: bs => by
    have ih := firstBest_min_find key (b :: bs)
    have hmapne : ((b :: bs).map key) ≠ [] := by simp
    have hM : listMin ((x :: b :: bs).map key) = min (key x) (listMin ((b :: bs).map key)) := by
      rw [List.map_cons]
      exact listMin_cons _ hmapne
    obtain ⟨y, hy⟩ : ∃ y, firstBest (fun a b => decide (key a ≤ key b)) (b :: bs) = some y := by
      cases h : firstBest (fun a b => decide (key a ≤ key b)) (b :: bs) with
      | none => exact absurd (firstBest_eq_none.mp h) (by simp)
      | some y => exact ⟨y, rfl⟩
    have hyM : key y = listMin ((b :: bs).map key) := by
      rw [ih] at hy
      have hp := List.find?_some hy
      simpa using hp
    by_cases hxy : key x ≤ key y
    · have hM2 : listMin ((x :: b :: bs).map key) = key x := by
        rw [hM, ← hyM]
        exact min_eq_left hxy
      rw [List.find?_cons_of_pos _ (by rw [hM2]; exact beq_self_eq_true _)]
      rw [firstBest_cons_some x hy]
      simp [hxy]
    · have hxylt : key y < key x := lt_of_not_le hxy
      have hM2 : listMin ((x :: b :: bs).map key) = key y := by
        rw [hM, ← hyM]
        exact min_eq_right (le_of_lt hxylt)
      rw [List.find?_cons_of_neg _ (by rw [hM2]; simp; exact ne_of_gt hxylt)]
      rw [show listMin ((x :: b :: bs).map key) = listMin ((b :: bs).map key) from
        hM2.trans hyM, ← ih]
      rw [firstBest_cons_some x hy, hy]
      simp [hxy]

/-- C4: the gainer is the first coin (in input order) among those with a
present 24h change whose change attains the maximum, the loser likewise for
the minimum (the stable descending / ascending sorts put exactly that coin
first); the gainer's change is ≥ every present change and the loser's ≤
every present change; and when no coin has a present change both are `none`
and the average change is `0`. -/
theorem gainerLoser_spec (coins : List MarketCoin) :
    topGainer coins =
      (coinsWithChange coins).find?
        (fun c => chgD c == listMax ((coinsWithChange coins).map chgD)) ∧
    topLoser coins =
      (coinsWithChange coins).find?
        (fun c => chgD c == listMin ((coinsWithChange coins).map chgD)) ∧
    (∀ g, topGainer coins = some g →
      ∀ c ∈ coins, ∀ x, c.price_change_percentage_24h = some x → x ≤ chgD g) ∧
    (∀ lo, topLoser coins = some lo →
      ∀ c ∈ coins, ∀ x, c.price_change_percentage_24h = some x → chgD lo ≤ x) ∧
    ((∀ c ∈ coins, c.price_change_percentage_24h = none) →
      topGainer coins = none ∧ topLoser coins = none ∧ avgChange24h coins = 0) := by
  have htransG : ∀ a b c : MarketCoin, decide (chgD b ≤ chgD a) = true →
      decide (chgD c ≤ chgD b) = true → decide (chgD c ≤ chgD a) = true := by
    intro a b c h1 h2
    simp only [decide_eq_true_eq] at h1 h2 ⊢
    exact le_trans h2 h1
  have htotG : ∀ a b : MarketCoin,
      (decide (chgD b ≤ chgD a) || decide (chgD a ≤ chgD b)) = true := by
    intro a b
    simp only [Bool.or_eq_true, decide_eq_true_eq]
    exact le_total _ _
  have htransL : ∀ a b c : MarketCoin, decide (chgD a ≤ chgD b) = true →
      decide (chgD b ≤ chgD c) = true → decide (chgD a ≤ chgD c) = true := by
    intro a b c h1 h2
    simp only [decide_eq_true_eq] at h1 h2 ⊢
    exact le_trans h1 h2
  have htotL : ∀ a b : MarketCoin,
      (decide (chgD a ≤ chgD b) || decide (chgD b ≤ chgD a)) = true := by
    intro a b
    simp only [Bool.or_eq_true, decide_eq_true_eq]
    exact le_total _ _
  have hG : topGainer coins =
      firstBest (fun a b => decide (chgD b ≤ chgD a)) (coinsWithChange coins) := by
    unfold topGainer
    exact head_mergeSort htransG htotG _
  have hL : topLoser coins =
      firstBest (fun a b => decide (chgD a ≤ chgD b)) (coinsWithChange coins) := by
    unfold topLoser
    exact head_mergeSort htransL htotL _
  refine ⟨hG.trans (firstBest_max_find chgD _), hL.trans (firstBest_min_find chgD _),
    ?_, ?_, ?_⟩
  · intro g hg c hc x hx
    rw [hG] at hg
    have hcw : c ∈ coinsWithChange coins := List.mem_filter.mpr ⟨hc, by simp [hx]⟩
    have hle := firstBest_le_all htransG htotG hg c hcw
    simp only [decide_eq_true_eq] at hle
    have hcx : chgD c = x := by simp [chgD, hx]
    rw [← hcx]
    exact hle
  · intro lo hlo c hc x hx
    rw [hL] at hlo
    have hcw : c ∈ coinsWithChange coins := List.mem_filter.mpr ⟨hc, by simp [hx]⟩
    have hle := firstBest_le_all htransL htotL hlo c hcw
    simp only [decide_eq_true_eq] at hle
    have hcx : chgD c = x := by simp [chgD, hx]
    rw [← hcx]
    exact hle
  · intro hall
    have hcw : coinsWithChange coins = [] := by
      unfold coinsWithChange
      rw [List.filter_eq_nil_iff]
      intro a ha
      simp [hall a ha]
    refine ⟨?_, ?_, ?_⟩
    · unfold topGainer
      rw [hcw]
      simp
    · unfold topLoser
      rw [hcw]
      simp
    · unfold avgChange24h
      rw [hcw]
      simp

/-- Witness for C4: with two coins tied at +5 the gainer is the first of
them in input order, the loser is the strictly smallest change, and a list
whose only coin has a `null` change yields no gainer and average `0`. -/
theorem gainerLoser_spec_witness :
    topGainer
        [⟨"a", "a", "A", 1, 1, 1, some 5, 1⟩, ⟨"b", "b", "B", 1, 1, 1, some 5, 2⟩,
         ⟨"c", "c", "C", 1, 1, 1, some (-1), 3⟩, ⟨"d", "d", "D", 1, 1, 1, none, 4⟩] =
      some ⟨"a", "a", "A", 1, 1, 1, some 5, 1⟩ ∧
    topLoser
        [⟨"a", "a", "A", 1, 1, 1, some 5, 1⟩, ⟨"b", "b", "B", 1, 1, 1, some 5, 2⟩,
         ⟨"c", "c", "C", 1, 1, 1, some (-1), 3⟩, ⟨"d", "d", "D", 1, 1, 1, none, 4⟩] =
      some ⟨"c", "c", "C", 1, 1, 1, some (-1), 3⟩ ∧
    topGainer [⟨"d", "d", "D", 1, 1, 1, none, 4⟩] = none ∧
    avgChange24h [⟨"d", "d", "D", 1, 1, 1, none, 4⟩] = 0 := by
  have h := gainerLoser_spec
    [⟨"a", "a", "A", 1, 1, 1, some 5, 1⟩, ⟨"b", "b", "B", 1, 1, 1, some 5, 2⟩,
     ⟨"c", "c", "C", 1, 1, 1, some (-1), 3⟩, ⟨"d", "d", "D", 1, 1, 1, none, 4⟩]
  have h2 := gainerLoser_spec [⟨"d", "d", "D", 1, 1, 1, none, 4⟩]
  have h2d := h2.2.2.2.2 (by intro c hc; simp at hc; rw [hc])
  refine ⟨?_, ?_, h2d.1, h2d.2.2⟩
  · rw [h.1]
    with_unfolding_all decide
  · rw [h.2.1]
    with_unfolding_all decide

/-! ## C5 / C6 / C7 — height ranges and degenerate normalisation -/

theorem jsRound_ratio_bounds {v M : ℚ} (h0 : 0 ≤ v) (hvM : v ≤ M) (hM : 0 < M) :
    0 ≤ jsRound (v / M * 100) ∧ jsRound (v / M * 100) ≤ 100 := by
  have h1 : 0 ≤ v / M * 100 := by positivity
  have h2 : v / M * 100 ≤ 100 := by
    have hd : v / M ≤ 1 := (div_le_one hM).mpr hvM
    calc v / M * 100 ≤ 1 * 100 := mul_le_mul_of_nonneg_right hd (by norm_num)
      _ = 100 := one_mul _
  exact ⟨jsRound_nonneg h1, jsRound_le_100 h2⟩

theorem listMax_pos_of_nonneg {l : List ℚ} (hne : l ≠ []) (hnn : ∀ x ∈ l, 0 ≤ x)
    (h0 : listMax l ≠ 0) : 0 < listMax l :=
  lt_of_le_of_ne (hnn _ (listMax_mem hne)) (Ne.symm h0)

theorem buildPriceBars_heights (prices : List (ℚ × ℚ)) (n : ℕ) (hn : n ≠ 0)
    (hnn : ∀ p ∈ prices, 0 ≤ (p : ℚ × ℚ).2) :
    ∀ b ∈ buildPriceBars prices n, 0 ≤ b.height ∧ b.height ≤ 100 := by
  rw [buildPriceBars_eq prices n hn]
  intro b hb
  obtain ⟨pr, hpr, rfl⟩ := List.mem_map.mp hb
  by_cases h0 : listMax ((specRetained prices n).map Prod.snd) = 0
  · simp [h0]
  · have hpr2 : pr.2 ∈ (specRetained prices n).map Prod.snd := List.mem_map_of_mem _ hpr
    have hple : pr.2 ≤ listMax ((specRetained prices n).map Prod.snd) := le_listMax hpr2
    have hnnall : ∀ x ∈ (specRetained prices n).map Prod.snd, 0 ≤ x := by
      intro x hx
      obtain ⟨q, hq, rfl⟩ := List.mem_map.mp hx
      exact hnn q (List.Sublist.mem hq (specRetained_sublist prices n))
    have hne : (specRetained prices n).map Prod.snd ≠ [] := by
      intro hc
      rw [hc] at hpr2
      simp at hpr2
    have hMpos := listMax_pos_of_nonneg hne hnnall h0
    have hb := jsRound_ratio_bounds (hnnall _ hpr2) hple hMpos
    simpa [h0] using hb

/-- Counterexample to C5 as stated: with target `n = 0` a nonempty series
still yields one bar (in JS `step` is `Infinity` and `slice(-0)` keeps
everything), and with negative prices a height of 200 is produced
(`round(-2 / -1 * 100)`), outside `[0, 100]`. -/
theorem buildPriceBars_bounds_cex :
    ¬((buildPriceBars [((0 : ℚ), (1 : ℚ))] 0).length ≤ 0) ∧
    ¬(∀ b ∈ buildPriceBars [((0 : ℚ), (-1 : ℚ)), (1, -2)] 12,
        0 ≤ b.height ∧ b.height ≤ 100) ∧
    (buildPriceBars [((0 : ℚ), (-1 : ℚ)), (1, -2)] 12).map PriceBar.height = [100, 200] := by
  refine ⟨?_, ?_, ?_⟩ <;> with_unfolding_all decide

/-- C5 amended: for a positive target `n ≥ 1`, `buildPriceBars` returns at
most `n` bars and maps the empty series to `[]`; and when every price in
the series is nonnegative, every returned height lies in `[0, 100]`. -/
theorem buildPriceBars_bounds_amended (prices : List (ℚ × ℚ)) (n : ℕ) (hn : 0 < n) :
    (buildPriceBars prices n).length ≤ n ∧
    (prices = [] → buildPriceBars prices n = []) ∧
    ((∀ p ∈ prices, 0 ≤ (p : ℚ × ℚ).2) →
      ∀ b ∈ buildPriceBars prices n, 0 ≤ b.height ∧ b.height ≤ 100) := by
  have hn2 : n ≠ 0 := Nat.pos_iff_ne_zero.mp hn
  refine ⟨?_, ?_, fun hnn => buildPriceBars_heights prices n hn2 hnn⟩
  · rw [buildPriceBars_eq prices n hn2, List.length_map]
    exact specRetained_length_le prices n
  · intro h
    subst h
    simp [buildPriceBars]

/-- Witness for C5 (amended) at the two-sample series `[5, 10]` with the
default target of 12 bars. -/
theorem buildPriceBars_bounds_amended_witness :
    0 < 12 ∧
    (buildPriceBars [((0 : ℚ), (5 : ℚ)), (1, 10)] 12).length ≤ 12 ∧
    (0 ≤ (⟨5, 50⟩ : PriceBar).height ∧ (⟨5, 50⟩ : PriceBar).height ≤ 100) :=
  ⟨by decide,
    (buildPriceBars_bounds_amended [((0 : ℚ), (5 : ℚ)), (1, 10)] 12 (by decide)).1,
    (buildPriceBars_bounds_amended [((0 : ℚ), (5 : ℚ)), (1, 10)] 12 (by decide)).2.2
      (by with_unfolding_all decide) ⟨5, 50⟩ (by with_unfolding_all decide)⟩

/-- Counterexample to C6 as stated: the all-equal series whose common value
is `0` gets height `0` on every bar (the `maxValue ? … : 0` guard wins over
the value/max = 1 reasoning), not height `100`. -/
theorem buildPriceBars_allEqual_cex :
    ¬(∀ b ∈ buildPriceBars [((0 : ℚ), (0 : ℚ)), (1, 0)] 12, b.height = 100) ∧
    (buildPriceBars [((0 : ℚ), (0 : ℚ)), (1, 0)] 12).map PriceBar.height = [0, 0] := by
  refine ⟨?_, ?_⟩ <;> with_unfolding_all decide

/-- C6 amended: every bar's height is `round(value / max * 100)` with max
taken over the retained samples, or `0` when that max is `0`; hence a
nonempty all-equal series yields height `100` on every bar when the common
value is nonzero, and height `0` on every bar when it is `0`. -/
theorem buildPriceBars_allEqual_amended (prices : List (ℚ × ℚ)) (n : ℕ) (hn : 0 < n) :
    (∀ b ∈ buildPriceBars prices n,
      b.height =
        if listMax ((specRetained prices n).map Prod.snd) = 0 then 0
        else jsRound (b.value / listMax ((specRetained prices n).map Prod.snd) * 100)) ∧
    (∀ v : ℚ, v ≠ 0 → (∀ p ∈ prices, (p : ℚ × ℚ).2 = v) →
      ∀ b ∈ buildPriceBars prices n, b.height = 100) ∧
    ((∀ p ∈ prices, (p : ℚ × ℚ).2 = 0) → ∀ b ∈ buildPriceBars prices n, b.height = 0) := by
  have hn2 : n ≠ 0 := Nat.pos_iff_ne_zero.mp hn
  refine ⟨?_, ?_, ?_⟩
  · rw [buildPriceBars_eq prices n hn2]
    intro b hb
    obtain ⟨pr, hpr, rfl⟩ := List.mem_map.mp hb
    rfl
  · intro v hv hall b hb
    rw [buildPriceBars_eq prices n hn2] at hb
    obtain ⟨pr, hpr, rfl⟩ := List.mem_map.mp hb
    have hvals : ∀ x ∈ (specRetained prices n).map Prod.snd, x = v := by
      intro x hx
      obtain ⟨q, hq, rfl⟩ := List.mem_map.mp hx
      exact hall q (List.Sublist.mem hq (specRetained_sublist prices n))
    have hne : (specRetained prices n).map Prod.snd ≠ [] := by
      intro hc
      have := List.mem_map_of_mem Prod.snd hpr
      rw [hc] at this
      simp at this
    have hMv : listMax ((specRetained prices n).map Prod.snd) = v :=
      hvals _ (listMax_mem hne)
    have hprv : pr.2 = v := hvals _ (List.mem_map_of_mem _ hpr)
    show (if listMax ((specRetained prices n).map Prod.snd) = 0 then 0
        else jsRound (pr.2 / listMax ((specRetained prices n).map Prod.snd) * 100)) = 100
    rw [hMv, hprv, if_neg hv, div_self hv]
    norm_num
    exact jsRound_hundred
  · intro hall b hb
    rw [buildPriceBars_eq prices n hn2] at hb
    obtain ⟨pr, hpr, rfl⟩ := List.mem_map.mp hb
    have hvals : ∀ x ∈ (specRetained prices n).map Prod.snd, x = 0 := by
      intro x hx
      obtain ⟨q, hq, rfl⟩ := List.mem_map.mp hx
      exact hall q (List.Sublist.mem hq (specRetained_sublist prices n))
    have hne : (specRetained prices n).map Prod.snd ≠ [] := by
      intro hc
      have := List.mem_map_of_mem Prod.snd hpr
      rw [hc] at this
      simp at this
    have hM0 : listMax ((specRetained prices n).map Prod.snd) = 0 :=
      hvals _ (listMax_mem hne)
    show (if listMax ((specRetained prices n).map Prod.snd) = 0 then 0
        else jsRound (pr.2 / listMax ((specRetained prices n).map Prod.snd) * 100)) = 0
    rw [if_pos hM0]

/-- Witness for C6 (amended) at the constant series `[7, 7]` (nonzero, so
every height is 100) with the default target of 12 bars. -/
theorem buildPriceBars_allEqual_amended_witness :
    0 < 12 ∧ (7 : ℚ) ≠ 0 ∧
    (⟨7, 100⟩ : PriceBar).height = 100 ∧
    (buildPriceBars [((0 : ℚ), (7 : ℚ)), (1, 7)] 12).map PriceBar.height = [100, 100] :=
  ⟨by decide, by decide,
    (buildPriceBars_allEqual_amended [((0 : ℚ), (7 : ℚ)), (1, 7)] 12 (by decide)).2.1 7
      (by decide) (by with_unfolding_all decide) ⟨7, 100⟩ (by with_unfolding_all decide),
    by with_unfolding_all decide⟩

theorem buildVolumeBars_eq (coins : List MarketCoin) :
    buildVolumeBars coins =
      coins.map fun c =>
        { label := c.symbol.toUpper
          value := c.total_volume
          height :=
            if listMax (coins.map MarketCoin.total_volume) = 0 then 0
            else jsRound (c.total_volume / listMax (coins.map MarketCoin.total_volume) * 100) } := by
  cases coins with
  | nil => rfl
  | cons c rest => simp only [buildVolumeBars, List.isEmpty_cons, Bool.false_eq_true, if_false]

/-- Counterexample to C7 as stated: with (out-of-domain but type-correct)
negative volumes `[-10, -5]` the maximum is `-5` and the first coin gets
height `round(-10 / -5 * 100) = 200`, outside `[0, 100]`. -/
theorem buildVolumeBars_range_cex :
    ¬(∀ b ∈ buildVolumeBars
        [⟨"a", "a", "A", 1, 1, -10, none, 1⟩, ⟨"b", "b", "B", 1, 1, -5, none, 2⟩],
        0 ≤ b.height ∧ b.height ≤ 100) ∧
    (buildVolumeBars
        [⟨"a", "a", "A", 1, 1, -10, none, 1⟩,
         ⟨"b", "b", "B", 1, 1, -5, none, 2⟩]).map VolumeBar.height = [200, 100] := by
  refine ⟨?_, ?_⟩ <;> with_unfolding_all decide

/-- C7 amended: `buildVolumeBars` never drops a coin (one bar per coin,
positionally, with `value` the coin's volume); a coin holding the maximum
volume gets height exactly `100` whenever that maximum is nonzero; if the
maximum volume is `0` every height is `0` with the division guarded off;
and when all volumes are nonnegative every height is in `[0, 100]`.  Only
the range clause needs the nonnegativity hypothesis — the other three hold
over the function's whole numeric domain. -/
theorem buildVolumeBars_amended (coins : List MarketCoin) :
    (buildVolumeBars coins).length = coins.length ∧
    (∀ p ∈ coins.zip (buildVolumeBars coins),
      (p : MarketCoin × VolumeBar).2.value = p.1.total_volume ∧
      (p.1.total_volume = listMax (coins.map MarketCoin.total_volume) →
        p.1.total_volume ≠ 0 → p.2.height = 100)) ∧
    ((∀ c ∈ coins, 0 ≤ c.total_volume) →
      ∀ b ∈ buildVolumeBars coins, 0 ≤ b.height ∧ b.height ≤ 100) ∧
    (listMax (coins.map MarketCoin.total_volume) = 0 →
      ∀ b ∈ buildVolumeBars coins, b.height = 0) := by
  refine ⟨by rw [buildVolumeBars_eq, List.length_map], ?_, ?_, ?_⟩
  · intro p hp
    rw [buildVolumeBars_eq] at hp
    have h2 := zip_map_mem _ coins p hp
    rw [h2]
    refine ⟨rfl, ?_⟩
    intro hmax h0
    show (if listMax (coins.map MarketCoin.total_volume) = 0 then 0
        else jsRound
          (p.1.total_volume / listMax (coins.map MarketCoin.total_volume) * 100)) = 100
    rw [if_neg (by rw [← hmax]; exact h0), ← hmax, div_self h0]
    norm_num
    exact jsRound_hundred
  · intro hnn b hb
    rw [buildVolumeBars_eq] at hb
    obtain ⟨c, hc, rfl⟩ := List.mem_map.mp hb
    by_cases h0 : listMax (coins.map MarketCoin.total_volume) = 0
    · simp [h0]
    · have hcm : c.total_volume ∈ coins.map MarketCoin.total_volume :=
        List.mem_map_of_mem _ hc
      have hle : c.total_volume ≤ listMax (coins.map MarketCoin.total_volume) :=
        le_listMax hcm
      have hnnall : ∀ x ∈ coins.map MarketCoin.total_volume, 0 ≤ x := by
        intro x hx
        obtain ⟨q, hq, rfl⟩ := List.mem_map.mp hx
        exact hnn q hq
      have hne : coins.map MarketCoin.total_volume ≠ [] := by
        intro hcontra
        rw [hcontra] at hcm
        simp at hcm
      have hMpos := listMax_pos_of_nonneg hne hnnall h0
      have hbnd := jsRound_ratio_bounds (hnn c hc) hle hMpos
      simpa [h0] using hbnd
  · intro h0 b hb
    rw [buildVolumeBars_eq] at hb
    obtain ⟨c, hc, rfl⟩ := List.mem_map.mp hb
    show (if listMax (coins.map MarketCoin.total_volume) = 0 then 0
        else jsRound
          (c.total_volume / listMax (coins.map MarketCoin.total_volume) * 100)) = 0
    rw [if_pos h0]

/-- Witness for C7 (amended) at volumes `[10, 40]`: two bars, heights
`[25, 100]`, the maximal coin's bar within `[0, 100]` under the
nonnegativity hypothesis; plus the all-zero-volume list, whose bars all
have height 0. -/
theorem buildVolumeBars_amended_witness :
    (buildVolumeBars
        [⟨"a", "a", "A", 1, 1, 10, none, 1⟩, ⟨"b", "b", "B", 1, 1, 40, none, 2⟩]).length = 2 ∧
    (buildVolumeBars
        [⟨"a", "a", "A", 1, 1, 10, none, 1⟩,
         ⟨"b", "b", "B", 1, 1, 40, none, 2⟩]).map VolumeBar.height = [25, 100] ∧
    (0 ≤ (⟨"B", 40, 100⟩ : VolumeBar).height ∧ (⟨"B", 40, 100⟩ : VolumeBar).height ≤ 100) ∧
    (∀ b ∈ buildVolumeBars [⟨"z", "z", "Z", 1, 1, 0, none, 1⟩], b.height = 0) := by
  refine ⟨?_, by with_unfolding_all decide, ?_, ?_⟩
  · exact (buildVolumeBars_amended
      [⟨"a", "a", "A", 1, 1, 10, none, 1⟩, ⟨"b", "b", "B", 1, 1, 40, none, 2⟩]).1
  · exact (buildVolumeBars_amended
      [⟨"a", "a", "A", 1, 1, 10, none, 1⟩, ⟨"b", "b", "B", 1, 1, 40, none, 2⟩]).2.2.1
      (by with_unfolding_all decide) ⟨"B", 40, 100⟩ (by with_unfolding_all decide)
  · exact (buildVolumeBars_amended [⟨"z", "z", "Z", 1, 1, 0, none, 1⟩]).2.2.2
      (by with_unfolding_all decide)

/-! ## C8 — closest-NEO ranking -/

theorem enrichNeo_eq (nn : DatedNeo) :
    enrichNeo nn =
      (nn.neo.close_approach_data.head?).map fun fa =>
        ({ neo := nn.neo
           date := fa.close_approach_date
           missKm := fa.miss_distance_km
           velocityKmPerSec := fa.relative_velocity_km_s } : EnrichedNeo) := by
  cases h : nn.neo.close_approach_data with
  | nil => simp [enrichNeo, h]
  | cons fa rest => simp [enrichNeo, h]

theorem map_enrich_reduceOption (neos : List DatedNeo) :
    (neos.map enrichNeo).reduceOption = neos.filterMap enrichNeo := by
  simp [List.reduceOption, List.filterMap_map]

/-- C8: `pickClosestNeos` equals the spec pipeline — enrich each object
from its *first* close-approach record only, drop objects with no record,
sort ascending by miss distance, take the first `k`; consequently the
output is sorted by miss distance, its length is
`min k (number of objects with at least one approach record)`, and every
output row is the first-record enrichment of some input object. -/
theorem pickClosestNeos_spec (neos : List DatedNeo) (k : ℕ) :
    pickClosestNeos neos k =
      ((neos.filterMap fun nn =>
          (nn.neo.close_approach_data.head?).map fun fa =>
            ({ neo := nn.neo
               date := fa.close_approach_date
               missKm := fa.miss_distance_km
               velocityKmPerSec := fa.relative_velocity_km_s } : EnrichedNeo)).mergeSort
        fun a b => decide (a.missKm ≤ b.missKm)).take k ∧
    List.Pairwise (fun a b : EnrichedNeo => a.missKm ≤ b.missKm) (pickClosestNeos neos k) ∧
    (pickClosestNeos neos k).length =
      min k (neos.countP fun nn => !(nn.neo.close_approach_data.isEmpty)) ∧
    (∀ e ∈ pickClosestNeos neos k, ∃ nn ∈ neos, enrichNeo nn = some e) := by
  have htrans : ∀ a b c : EnrichedNeo, decide (a.missKm ≤ b.missKm) = true →
      decide (b.missKm ≤ c.missKm) = true → decide (a.missKm ≤ c.missKm) = true := by
    intro a b c h1 h2
    simp only [decide_eq_true_eq] at h1 h2 ⊢
    exact le_trans h1 h2
  have htot : ∀ a b : EnrichedNeo,
      (decide (a.missKm ≤ b.missKm) || decide (b.missKm ≤ a.missKm)) = true := by
    intro a b
    simp only [Bool.or_eq_true, decide_eq_true_eq]
    exact le_total _ _
  have hfun : enrichNeo = fun nn : DatedNeo =>
      (nn.neo.close_approach_data.head?).map fun fa =>
        ({ neo := nn.neo
           date := fa.close_approach_date
           missKm := fa.miss_distance_km
           velocityKmPerSec := fa.relative_velocity_km_s } : EnrichedNeo) :=
    funext enrichNeo_eq
  have hpipe : pickClosestNeos neos k =
      ((neos.filterMap enrichNeo).mergeSort fun a b =>
        decide (a.missKm ≤ b.missKm)).take k := by
    unfold pickClosestNeos
    rw [map_enrich_reduceOption]
  refine ⟨by rw [hpipe, ← hfun], ?_, ?_, ?_⟩
  · rw [hpipe]
    have hs := List.sorted_mergeSort htrans htot (neos.filterMap enrichNeo)
    have hsub := List.take_sublist k
      ((neos.filterMap enrichNeo).mergeSort fun a b => decide (a.missKm ≤ b.missKm))
    refine List.Pairwise.imp ?_ (List.Pairwise.sublist hsub hs)
    intro a b h
    exact of_decide_eq_true h
  · rw [hpipe, List.length_take, List.length_mergeSort,
      List.length_filterMap_eq_countP]
    congr 1
    refine List.countP_congr ?_
    intro nn _
    cases h : nn.neo.close_approach_data with
    | nil => simp [enrichNeo, h]
    | cons fa rest => simp [enrichNeo, h]
  · intro e he
    rw [hpipe] at he
    have h1 : e ∈ (neos.filterMap enrichNeo).mergeSort
        fun a b => decide (a.missKm ≤ b.missKm) := List.mem_of_mem_take he
    have h2 : e ∈ neos.filterMap enrichNeo := List.mem_mergeSort.mp h1
    obtain ⟨nn, hnn, heq⟩ := List.mem_filterMap.mp h2
    exact ⟨nn, hnn, heq⟩

set_option maxRecDepth 4000 in
/-- Witness for C8: one object whose *first* approach is at 500 km (even
though a later approach is closer), one object with no approach record
(excluded), one object at 100 km; the ranking is [100 km, 500 km] and has
length `min 8 2 = 2`. -/
theorem pickClosestNeos_spec_witness :
    pickClosestNeos
        [⟨"2025-01-01", ⟨"n1", "N1", true, 1, 2, [⟨"2025-01-02", 500, 7, "Earth"⟩,
            ⟨"2025-01-03", 10, 8, "Earth"⟩]⟩⟩,
         ⟨"2025-01-01", ⟨"n2", "N2", false, 1, 2, []⟩⟩,
         ⟨"2025-01-02", ⟨"n3", "N3", false, 1, 2, [⟨"2025-01-04", 100, 9, "Earth"⟩]⟩⟩] 8 =
      [⟨⟨"n3", "N3", false, 1, 2, [⟨"2025-01-04", 100, 9, "Earth"⟩]⟩, "2025-01-04", 100, 9⟩,
       ⟨⟨"n1", "N1", true, 1, 2, [⟨"2025-01-02", 500, 7, "Earth"⟩,
          ⟨"2025-01-03", 10, 8, "Earth"⟩]⟩, "2025-01-02", 500, 7⟩] ∧
    (pickClosestNeos
        [⟨"2025-01-01", ⟨"n1", "N1", true, 1, 2, [⟨"2025-01-02", 500, 7, "Earth"⟩,
            ⟨"2025-01-03", 10, 8, "Earth"⟩]⟩⟩,
         ⟨"2025-01-01", ⟨"n2", "N2", false, 1, 2, []⟩⟩,
         ⟨"2025-01-02", ⟨"n3", "N3", false, 1, 2, [⟨"2025-01-04", 100, 9, "Earth"⟩]⟩⟩] 8).length =
      2 := by
  have h := pickClosestNeos_spec
    [⟨"2025-01-01", ⟨"n1", "N1", true, 1, 2, [⟨"2025-01-02", 500, 7, "Earth"⟩,
        ⟨"2025-01-03", 10, 8, "Earth"⟩]⟩⟩,
     ⟨"2025-01-01", ⟨"n2", "N2", false, 1, 2, []⟩⟩,
     ⟨"2025-01-02", ⟨"n3", "N3", false, 1, 2, [⟨"2025-01-04", 100, 9, "Earth"⟩]⟩⟩] 8
  constructor
  · rw [h.1]
    with_unfolding_all decide
  · rw [h.2.2.1]
    with_unfolding_all decide

/-! ## C9 — degenerate inputs -/

/-- C9: every transform is a total function in this embedding, and each one
maps its degenerate input to the documented degenerate output — empty
series to `[]` / zero counters, empty coin lists to `[]`, `null`-only
change fields to absent gainer/loser and zero average, the empty NEO list
to all-zero aggregates, and the empty flare list to `[]`; every division
sits behind a nonzero guard. -/
theorem transformsTotal_spec :
    (∀ n : ℕ, buildPriceBars [] n = []) ∧
    computeGreenRate [] = { greenRate := 0, up := 0, down := 0 } ∧
    (∀ p : ℚ × ℚ, computeGreenRate [p] = { greenRate := 0, up := 0, down := 0 }) ∧
    buildVolumeBars [] = [] ∧
    marketShare [] = [] ∧
    totalTop5Cap [] = 0 ∧
    topGainer [] = none ∧
    topLoser [] = none ∧
    avgChange24h [] = 0 ∧
    (∀ coins : List MarketCoin, (∀ c ∈ coins, c.price_change_percentage_24h = none) →
      topGainer coins = none ∧ topLoser coins = none ∧ avgChange24h coins = 0) ∧
    computeNeoHazards [] = { total := 0, hazardous := 0, hazardRate := 0, avgDiameterKm := 0 } ∧
    (∀ k : ℕ, pickClosestNeos [] k = []) ∧
    groupFlaresByDay [] = [] := by
  refine ⟨fun n => by simp [buildPriceBars], rfl, fun p => rfl, rfl, rfl, rfl,
    by simp [topGainer, coinsWithChange], by simp [topLoser, coinsWithChange],
    by simp [avgChange24h, coinsWithChange], ?_, rfl,
    fun k => by simp [pickClosestNeos], by simp [groupFlaresByDay]⟩
  intro coins hall
  have hcw : coinsWithChange coins = [] := by
    unfold coinsWithChange
    rw [List.filter_eq_nil_iff]
    intro a ha
    simp [hall a ha]
  refine ⟨?_, ?_, ?_⟩
  · unfold topGainer
    rw [hcw]
    simp
  · unfold topLoser
    rw [hcw]
    simp
  · unfold avgChange24h
    rw [hcw]
    simp

/-- Witness for C9 at a singleton coin list with a `null` 24h change. -/
theorem transformsTotal_spec_witness :
    topGainer [⟨"e", "e", "E", 1, 1, 1, none, 1⟩] = none ∧
    avgChange24h [⟨"e", "e", "E", 1, 1, 1, none, 1⟩] = 0 := by
  have h := transformsTotal_spec.2.2.2.2.2.2.2.2.2.1
    [⟨"e", "e", "E", 1, 1, 1, none, 1⟩] (by intro c hc; simp at hc; rw [hc])
  exact ⟨h.1, h.2.2⟩

/-! ## C10 — solar-flare day grouping -/

theorem mapBump_sum (day : String) :
    ∀ m : List (String × ℕ), ((mapBump m day).map Prod.snd).sum = (m.map Prod.snd).sum + 1
  | [] => by simp [mapBump]
  | (k, v) :: rest => by
    by_cases h : k = day
    · simp [mapBump, h]
      omega
    · simp [mapBump, h, mapBump_sum day rest]
      omega

theorem mapBump_counts (day : String) :
    ∀ m : List (String × ℕ), (∀ p ∈ m, 1 ≤ (p : String × ℕ).2) →
      ∀ p ∈ mapBump m day, 1 ≤ (p : String × ℕ).2
  | [] => by
    intro _ p hp
    simp only [mapBump, List.mem_singleton] at hp
    subst hp
    simp
  | (k, v) :: rest => by
    intro hm p hp
    by_cases h : k = day
    · simp only [mapBump, if_pos h] at hp
      rcases List.mem_cons.mp hp with h2 | h2
      · subst h2; simp
      · exact hm p (List.mem_cons.mpr (Or.inr h2))
    · simp only [mapBump, if_neg h] at hp
      rcases List.mem_cons.mp hp with h2 | h2
      · subst h2
        exact hm _ (List.mem_cons_self _ _)
      · exact mapBump_counts day rest
          (fun q hq => hm q (List.mem_cons.mpr (Or.inr hq))) p h2

theorem mapBump_keys (day d : String) :
    ∀ m : List (String × ℕ),
      (d ∈ (mapBump m day).map Prod.fst ↔ d ∈ m.map Prod.fst ∨ d = day)
  | [] => by simp [mapBump]
  | (k, v) :: rest => by
    by_cases h : k = day
    · subst h
      rw [show mapBump ((k, v) :: rest) k = (k, v + 1) :: rest from by simp [mapBump]]
      simp only [List.map_cons, List.mem_cons]
      constructor
      · exact fun h2 => Or.inl h2
      · rintro (h2 | h2)
        · exact h2
        · subst h2
          exact Or.inl rfl
    · simp only [mapBump, if_neg h]
      simp only [List.map_cons, List.mem_cons]
      rw [mapBump_keys day d rest]
      tauto

theorem mapBump_nodup (day : String) :
    ∀ m : List (String × ℕ), (m.map Prod.fst).Nodup → ((mapBump m day).map Prod.fst).Nodup
  | [] => by simp [mapBump]
  | (k, v) :: rest => by
    intro hm
    simp only [List.map_cons, List.nodup_cons] at hm
    by_cases h : k = day
    · simp only [mapBump, if_pos h, List.map_cons, List.nodup_cons]
      exact hm
    · simp only [mapBump, if_neg h, List.map_cons, List.nodup_cons]
      refine ⟨?_, mapBump_nodup day rest hm.2⟩
      rw [mapBump_keys day k rest]
      push_neg
      exact ⟨hm.1, h⟩

theorem flareFold_sum :
    ∀ (flares : List SolarFlare) (m : List (String × ℕ)),
      (((flares.foldl (fun acc f => mapBump acc (f.beginTime.take 10)) m).map Prod.snd).sum)
        = (m.map Prod.snd).sum + flares.length
  | [], m => by simp
  | f :: fs, m => by
    rw [List.foldl_cons, flareFold_sum fs, mapBump_sum]
    simp only [List.length_cons]
    omega

theorem flareFold_counts :
    ∀ (flares : List SolarFlare) (m : List (String × ℕ)),
      (∀ p ∈ m, 1 ≤ (p : String × ℕ).2) →
      ∀ p ∈ flares.foldl (fun acc f => mapBump acc (f.beginTime.take 10)) m,
        1 ≤ (p : String × ℕ).2
  | [], m => by
    intro hm p hp
    exact hm p hp
  | f :: fs, m => by
    intro hm
    rw [List.foldl_cons]
    exact flareFold_counts fs _ (mapBump_counts _ m hm)

theorem flareFold_keys :
    ∀ (flares : List SolarFlare) (m : List (String × ℕ)) (d : String),
      (d ∈ (flares.foldl (fun acc f => mapBump acc (f.beginTime.take 10)) m).map Prod.fst ↔
        d ∈ m.map Prod.fst ∨ d ∈ flares.map fun f => f.beginTime.take 10)
  | [], m, d => by simp
  | f :: fs, m, d => by
    rw [List.foldl_cons, flareFold_keys fs _ d, mapBump_keys _ d m]
    simp only [List.map_cons, List.mem_cons]
    tauto

theorem flareFold_nodup :
    ∀ (flares : List SolarFlare) (m : List (String × ℕ)),
      (m.map Prod.fst).Nodup →
      ((flares.foldl (fun acc f => mapBump acc (f.beginTime.take 10)) m).map Prod.fst).Nodup
  | [], m => fun hm => hm
  | f :: fs, m => by
    intro hm
    rw [List.foldl_cons]
    exact flareFold_nodup fs _ (mapBump_nodup _ m hm)

/-- C10: `groupFlaresByDay` is count-preserving — the per-day counts sum
to the number of input events, every returned count is at least 1, and the
returned day keys are (without duplicates) exactly the distinct
first-10-character prefixes of the events' begin timestamps. -/
theorem groupFlaresByDay_spec (flares : List SolarFlare) :
    ((groupFlaresByDay flares).map Prod.snd).sum = flares.length ∧
    (∀ p ∈ groupFlaresByDay flares, 1 ≤ (p : String × ℕ).2) ∧
    ((groupFlaresByDay flares).map Prod.fst).Nodup ∧
    ∀ d : String,
      d ∈ (groupFlaresByDay flares).map Prod.fst ↔
        d ∈ flares.map fun f => f.beginTime.take 10 := by
  unfold groupFlaresByDay
  have hperm := List.mergeSort_perm
    (flares.foldl (fun acc f => mapBump acc (f.beginTime.take 10)) [])
    (fun a b : String × ℕ => decide (a.1 ≤ b.1))
  refine ⟨?_, ?_, ?_, ?_⟩
  · rw [(hperm.map Prod.snd).sum_eq, flareFold_sum]
    simp
  · intro p hp
    exact flareFold_counts flares [] (by simp) p (hperm.mem_iff.mp hp)
  · rw [(hperm.map Prod.fst).nodup_iff]
    exact flareFold_nodup flares [] (by simp)
  · intro d
    rw [(hperm.map Prod.fst).mem_iff, flareFold_keys]
    simp

/-- Witness for C10 at three flares over two distinct days: counts sum to
3 and the grouping is `[(2025-01-01, 1), (2025-01-02, 2)]`. -/
theorem groupFlaresByDay_spec_witness :
    ((groupFlaresByDay
        [⟨"a", "2025-01-02T03:04Z", "", "", "C", none⟩,
         ⟨"b", "2025-01-01T09:00Z", "", "", "M", none⟩,
         ⟨"c", "2025-01-02T05:00Z", "", "", "X", none⟩]).map Prod.snd).sum = 3 ∧
    groupFlaresByDay
        [⟨"a", "2025-01-02T03:04Z", "", "", "C", none⟩,
         ⟨"b", "2025-01-01T09:00Z", "", "", "M", none⟩,
         ⟨"c", "2025-01-02T05:00Z", "", "", "X", none⟩] =
      [("2025-01-01", 1), ("2025-01-02", 2)] := by
  constructor
  · exact (groupFlaresByDay_spec
      [⟨"a", "2025-01-02T03:04Z", "", "", "C", none⟩,
       ⟨"b", "2025-01-01T09:00Z", "", "", "M", none⟩,
       ⟨"c", "2025-01-02T05:00Z", "", "", "X", none⟩]).1
  · with_unfolding_all decide
